import Mathlib

set_option linter.unusedVariables false

/-!  Verification of the SWAP line-list trimmer (`trimmer.py`).

Wavelengths are modelled as exact rationals (`ℚ`): every routine verified here
uses wavelengths only through order comparisons, which agree with the order on
the parsed decimal literals.  The per-block memo dictionary
(`element_wavelength_dictionary`) is pure memoisation of `float(line.split()[0])`
and is elided: an index lookup is modelled as direct list indexing.  -/

/-- `get_wavelength_from_array` (trimmer.py lines 214-226): read the wavelength at a
local index.  The memo dictionary is elided (pure memoisation); the string array plus
`offset_idx` is modelled as the block's wavelength list `A` itself.  Out-of-range
indices (Python would raise or wrap around) are outside the modelled domain and
default to `0`. -/
def get_wavelength_from_array (A : List ℚ) (i : ℕ) : ℚ := A.getD i 0

/-- The backward duplicate scan of `binary_find_left_segment_index`
(trimmer.py lines 267-272): while `mid > 0` and the value left of `mid` equals the
key, decrement `mid`. -/
def dup_scan_back (A : List ℚ) (low : ℕ) (x : ℚ) : ℕ → ℕ
  | 0 => 0
  | m + 1 => if get_wavelength_from_array A (m + low) = x then dup_scan_back A low x m else m + 1

/-- The main loop of `binary_find_left_segment_index` (trimmer.py lines 256-274),
with Python's signed loop variables modelled as `ℤ` (`right` reaches `-1` when the
key is below the inspected window).  Division is floor division, as in Python. -/
def left_loop (A : List ℚ) (low : ℕ) (x : ℚ) (l r : ℤ) : ℤ :=
  if l ≤ r then
    let mid : ℤ := (l + r) / 2
    let v : ℚ := get_wavelength_from_array A (mid.toNat + low)
    if v < x then left_loop A low x (mid + 1) r
    else if x < v then left_loop A low x l (mid - 1)
    else (dup_scan_back A low x mid.toNat : ℤ) + low
  else l + low
termination_by (r + 1 - l).toNat
decreasing_by all_goals (simp_wf; omega)

/-- `binary_find_left_segment_index` (trimmer.py lines 228-274).  `high` is
decremented on entry; the two boundary shortcuts are checked before the loop.
Return type is `ℤ`, matching Python's unbounded signed integers. -/
def binary_find_left_segment_index (A : List ℚ) (low high : ℕ) (x : ℚ) : ℤ :=
  let high' : ℤ := (high : ℤ) - 1
  if x ≤ get_wavelength_from_array A low then (low : ℤ)
  else if get_wavelength_from_array A high'.toNat ≤ x then high'
  else left_loop A low x 0 high'

/-- The main loop of `binary_find_right_segment_index` (trimmer.py lines 300-311):
an upper-bound binary search over window-relative indices. -/
def right_loop (A : List ℚ) (low : ℕ) (x : ℚ) (l r : ℕ) : ℕ :=
  if l < r then
    let mid : ℕ := (l + r) / 2
    if get_wavelength_from_array A (mid + low) ≤ x then right_loop A low x (mid + 1) r
    else right_loop A low x l mid
  else l
termination_by r - l
decreasing_by all_goals omega

/-- `binary_find_right_segment_index` (trimmer.py lines 276-312). -/
def binary_find_right_segment_index (A : List ℚ) (low high : ℕ) (x : ℚ) : ℤ :=
  let high' : ℤ := (high : ℤ) - 1
  if x ≤ get_wavelength_from_array A low then (low : ℤ)
  else if get_wavelength_from_array A high'.toNat ≤ x then high'
  else (right_loop A low x 0 (high'.toNat - low) : ℤ) + low - 1

example : binary_find_left_segment_index [12, 20, 32, 40, 52] 0 5 53 = 4 := by decide
example : binary_find_left_segment_index [12, 20, 32, 40, 52] 0 5 13 = 1 := by
  simp +decide [binary_find_left_segment_index, left_loop, dup_scan_back, get_wavelength_from_array]
example : binary_find_left_segment_index [12, 20, 32, 40, 52] 0 5 20 = 1 := by
  simp +decide [binary_find_left_segment_index, left_loop, dup_scan_back, get_wavelength_from_array]
example : binary_find_left_segment_index [12, 20, 32, 40, 52] 0 5 21 = 2 := by
  simp +decide [binary_find_left_segment_index, left_loop, dup_scan_back, get_wavelength_from_array]
example : binary_find_left_segment_index [12, 20, 32, 40, 52] 0 5 52 = 4 := by decide
example : binary_find_right_segment_index [12, 20, 32, 40, 52] 0 5 13 = 0 := by
  simp +decide [binary_find_right_segment_index, right_loop, get_wavelength_from_array]
example : binary_find_right_segment_index [12, 20, 32, 40, 52] 0 5 20 = 1 := by
  simp +decide [binary_find_right_segment_index, right_loop, get_wavelength_from_array]
example : binary_find_right_segment_index [12, 20, 32, 40, 52] 0 5 21 = 1 := by
  simp +decide [binary_find_right_segment_index, right_loop, get_wavelength_from_array]
example : binary_find_right_segment_index [12, 20, 32, 40, 52] 0 5 52 = 4 := by decide
example : binary_find_right_segment_index [12, 20, 32, 40, 52] 0 5 53 = 4 := by decide

/-!  ## Per-block window extraction (create_window_linelist, lines 136-180)  -/

/-- `np.min` over a nonempty list (`segment_min_wavelength`, line 47); the empty
case (on which NumPy raises) defaults to `0` and is outside the modelled domain. -/
def np_min : List ℚ → ℚ
  | [] => 0
  | a :: l => l.foldl min a

/-- `np.max` over a nonempty list (`segment_max_wavelength`, line 48). -/
def np_max : List ℚ → ℚ
  | [] => 0
  | a :: l => l.foldl max a

/-- The body of the per-segment loop (trimmer.py lines 146-172) for one block with
wavelength list `W` (`N = number_of_lines_element`) and one segment:
left search from `(0, N)`, the containment check
`seg_begin <= wavelength_current_line <= seg_end`, and on success the right search
from `(index_seg_start, N)`; records the half-open pair
`(index_seg_start, index_seg_end + 1)`. -/
def seg_match (W : List ℚ) (N : ℕ) (seg : ℚ × ℚ) : Option (ℕ × ℕ) :=
  let iStart : ℕ := (binary_find_left_segment_index W 0 N seg.1).toNat
  let wcur : ℚ := get_wavelength_from_array W iStart
  if seg.1 ≤ wcur ∧ wcur ≤ seg.2 then
    let iEnd : ℕ := (binary_find_right_segment_index W iStart N seg.2).toNat
    some (iStart, iEnd + 1)
  else none

/-- Whether the block survives the envelope fast reject (trimmer.py line 144):
`not (wavelength_maximum_element < segment_min_wavelength or
wavelength_minimum_element > segment_max_wavelength)`. -/
def block_in_envelope (W : List ℚ) (N : ℕ) (segs : List (ℚ × ℚ)) : Prop :=
  ¬ (get_wavelength_from_array W (N - 1) < np_min (segs.map Prod.fst) ∨
     np_max (segs.map Prod.snd) < get_wavelength_from_array W 0)

instance (W : List ℚ) (N : ℕ) (segs : List (ℚ × ℚ)) :
    Decidable (block_in_envelope W N segs) := by
  unfold block_in_envelope; infer_instance

/-- Merged layout (`lbl=False`): line-index ranges recorded for one block under the
single group key `0`, one entry per matching segment, in segment order
(trimmer.py lines 144-172). -/
def block_ranges (W : List ℚ) (N : ℕ) (segs : List (ℚ × ℚ)) : List (ℕ × ℕ) :=
  if block_in_envelope W N segs then segs.filterMap (seg_match W N) else []

/-- Per-segment layout (`lbl=True`): the ranges recorded for one block under group
key `segIdx` (trimmer.py lines 159-172): the single matched range of segment
`segIdx`, if any. -/
def block_ranges_lbl (W : List ℚ) (N : ℕ) (segs : List (ℚ × ℚ)) (segIdx : ℕ) :
    List (ℕ × ℕ) :=
  if block_in_envelope W N segs then (seg_match W N (segs.getD segIdx (0, 0))).toList
  else []

/-- The number of boundary-search invocations for one block
(`binary_find_left_segment_index` once per segment, plus
`binary_find_right_segment_index` when the containment check passes); zero when the
envelope fast reject fires (trimmer.py lines 144-157). -/
def block_search_count (W : List ℚ) (N : ℕ) (segs : List (ℚ × ℚ)) : ℕ :=
  if block_in_envelope W N segs then
    segs.foldl (fun acc s => acc + 1 + if (seg_match W N s).isSome then 1 else 0) 0
  else 0

/-!  ## Output assembly (write_lines, trimmer.py lines 314-342)  -/

/-- `line_length` as accumulated by `write_lines` (lines 334-338): the sum of
`index_end - index_start` over the recorded pairs.  This is the count written into
the rewritten header line 1 (line 340). -/
def write_lines_count (ranges : List (ℕ × ℕ)) : ℕ :=
  (ranges.map (fun p => p.2 - p.1)).sum

/-- The indices of the data lines concatenated by `write_lines` (line 339,
`lines_file[index_start:index_end]` for each recorded pair, in order).  A line is
written once per recorded pair containing it. -/
def written_indices (ranges : List (ℕ × ℕ)) : List ℕ :=
  ranges.flatMap (fun p => List.range' p.1 (p.2 - p.1))

example : write_lines_count [(0, 3), (1, 3)] = 5 := by decide
example : written_indices [(0, 3), (1, 3)] = [0, 1, 2, 1, 2] := by decide

/-!  ## Per-file classification and dispatch (create_window_linelist, lines 72-99) -/

/-- The action `create_window_linelist` takes for one readable file whose first
line yielded the species string `element = fields[0] + fields[1]` (lines 72-99):
molecule filtering via `elements = element.split(sep, 1)[0]`, the hydrogen
verbatim-copy branch, the windowing branch, or no action.  Note the two distinct
sentinels in the source: the copy branch (line 81) compares `element` with the
QUOTED string `'01.000000'` (apostrophes included), whereas the windowing guard
(line 96) compares with the UNQUOTED `01.000000`. -/
inductive FileAction
  | copyWhole
  | window
  | skip
deriving DecidableEq

/-- Python's `element.split('.', 1)[0]` (trimmer.py line 75): the characters of
`element` before the first dot. -/
def split_before_dot (element : String) : List Char :=
  element.data.takeWhile (fun c => !(c == '.'))

/-- The dispatch of trimmer.py lines 78-96. -/
def file_action (element : String) (molecules_flag do_hydrogen : Bool) : FileAction :=
  let elements : List Char := split_before_dot element
  if (elements.length > 3 ∧ molecules_flag = true) ∨ elements.length ≤ 3 then
    if element = "\x2701.000000\x27" ∧ do_hydrogen = true then FileAction.copyWhole
    else if element ≠ "01.000000" then FileAction.window
    else FileAction.skip
  else FileAction.skip

/-- Where the hydrogen fast path copies the whole file (lines 85-95): group key `0`
once when `lbl` is false, one copy per segment index when `lbl` is true. -/
def hydrogen_copy_groups (lbl : Bool) (numSegs : ℕ) : List ℕ :=
  if lbl then List.range numSegs else [0]

example : file_action "\x2701.000000\x27" false true = FileAction.copyWhole := by decide
example : file_action "\x2701.000000\x27" false false = FileAction.window := by decide
example : file_action "01.000000" false false = FileAction.skip := by decide

/-!  ## Combiner (combine_linelists, trimmer.py lines 344-361)  -/

/-- Python's `str.endswith(".bsyn")`, modelled as a suffix test on the character
list. -/
def ends_with_bsyn (name : String) : Bool :=
  ".bsyn".data.isSuffixOf name.data

/-- Whether `combine_linelists` treats a directory entry as a per-file source
(line 352): `file.endswith(".bsyn") and not file == combined_linelist_name`. -/
def is_bsyn_source (combinedName : String) (f : String × String) : Bool :=
  ends_with_bsyn f.1 && !(f.1 == combinedName)

/-- One folder pass of `combine_linelists` (lines 348-359) over a folder modelled
as a `(name, content)` list: the combined file is opened with mode `"w"`
(created, or truncated if present), every per-file source is appended to it in
listing order and then deleted, and every other entry is left alone. -/
def combine_folder (combinedName : String) (files : List (String × String)) :
    List (String × String) :=
  (files.filter (fun f => !(is_bsyn_source combinedName f) && !(f.1 == combinedName))) ++
    [(combinedName, String.join ((files.filter (is_bsyn_source combinedName)).map Prod.snd))]

/-- `combine_linelists` over the trimmed-output root (lines 346-359): each group
subdirectory is combined independently. -/
def combine_linelists (combinedName : String) (folders : List (List (String × String))) :
    List (List (String × String)) :=
  folders.map (combine_folder combinedName)

example :
    combine_folder "combined_linelist.bsyn" [("combined_linelist.bsyn", "data")] =
      [("combined_linelist.bsyn", "")] := by decide
example :
    combine_folder "combined_linelist.bsyn" [("linelist-0.bsyn", "a"), ("linelist-1.bsyn", "b")] =
      [("combined_linelist.bsyn", "ab")] := by decide

/-!  ## File-level error handling (create_window_linelist, lines 60-71)  -/

/-- Result of `fp.readline()` on a file's first line: a `UnicodeDecodeError`, or
the line's text (empty text means the file is empty). -/
inductive FirstLineResult
  | decodeError
  | line (s : String)
deriving DecidableEq

/-- One input file: its first-line read outcome plus an abstract payload standing
for the rest of its content. -/
structure LineListFileModel (α : Type) where
  firstLine : FirstLineResult
  payload : α

/-- Processing of one file by the loop of trimmer.py lines 60-71: a decode failure
or an empty first line produces one warning and no output and the loop `continue`s;
otherwise the file is handled by the rest of the loop body, modelled by the
abstract `handle`.  Result: (warnings, outputs). -/
def process_file {α β : Type} (handle : α → List β) (f : LineListFileModel α) :
    List String × List β :=
  match f.firstLine with
  | FirstLineResult.decodeError =>
      (["LINELIST WARNING! file is not a valid linelist file"], [])
  | FirstLineResult.line s =>
      if s = "" then (["LINELIST WARNING! file is empty"], [])
      else ([], handle f.payload)

/-- The whole file loop (line 60): files are processed in order, warnings and
outputs accumulated; no file aborts the run. -/
def process_files {α β : Type} (handle : α → List β) :
    List (LineListFileModel α) → List String × List β
  | [] => ([], [])
  | f :: rest =>
      let r := process_file handle f
      let rs := process_files handle rest
      (r.1 ++ rs.1, r.2 ++ rs.2)

example : seg_match [5, 5] 2 (5, 5) = some (0, 1) := by decide
example : block_ranges [5, 5] 2 [(5, 5)] = [(0, 1)] := by decide
example : write_lines_count (block_ranges [5, 5] 2 [(5, 5)]) = 1 := by decide
example : block_ranges [1, 2, 2] 3 [(2, 3), (2, 3)] = [(2, 3), (2, 3)] := by decide
example : (written_indices (block_ranges [1, 2, 2] 3 [(2, 3), (2, 3)])).count 1 = 0 := by decide
example : binary_find_left_segment_index [1, 2, 2] 0 3 2 = 2 := by decide

/-!  ## Correctness of the boundary locators  -/

/-- `r` is the smallest index of `A` whose value is `≥ x`. -/
def IsLowerBoundIndex (A : List ℚ) (x : ℚ) (r : ℤ) : Prop :=
  0 ≤ r ∧ r < A.length ∧ x ≤ A.getD r.toNat 0 ∧ ∀ j : ℕ, (j : ℤ) < r → A.getD j 0 < x

/-- `r` is the largest index of `A` whose value is `≤ x`. -/
def IsUpperMatchIndex (A : List ℚ) (x : ℚ) (r : ℤ) : Prop :=
  0 ≤ r ∧ r < A.length ∧ A.getD r.toNat 0 ≤ x ∧
    ∀ j : ℕ, (r : ℤ) < j → j < A.length → x < A.getD j 0

lemma getD_eq_get {A : List ℚ} {i : ℕ} (h : i < A.length) : A.getD i 0 = A.get ⟨i, h⟩ := by
  simp [List.getD_eq_getElem?_getD, List.getElem?_eq_getElem h]

lemma sorted_getD_mono {A : List ℚ} (hs : A.Sorted (· ≤ ·)) {i j : ℕ} (hij : i ≤ j)
    (hj : j < A.length) : A.getD i 0 ≤ A.getD j 0 := by
  have hi : i < A.length := by omega
  rw [getD_eq_get hi, getD_eq_get hj]
  rcases eq_or_lt_of_le hij with rfl | hlt
  · exact le_refl _
  · exact List.pairwise_iff_get.mp hs _ _ hlt

lemma strict_sorted_getD_lt {A : List ℚ} (hs : A.Sorted (· < ·)) {i j : ℕ} (hij : i < j)
    (hj : j < A.length) : A.getD i 0 < A.getD j 0 := by
  have hi : i < A.length := by omega
  rw [getD_eq_get hi, getD_eq_get hj]
  exact List.pairwise_iff_get.mp hs _ _ hij

lemma dup_scan_back_zero (A : List ℚ) (x : ℚ) : dup_scan_back A 0 x 0 = 0 := rfl

lemma dup_scan_back_succ (A : List ℚ) (x : ℚ) (m : ℕ) :
    dup_scan_back A 0 x (m + 1) =
      if A.getD m 0 = x then dup_scan_back A 0 x m else m + 1 := by
  simp [dup_scan_back, get_wavelength_from_array]

lemma dup_scan_back_spec {A : List ℚ} (hs : A.Sorted (· ≤ ·)) {x : ℚ} :
    ∀ m : ℕ, m < A.length → A.getD m 0 = x →
      dup_scan_back A 0 x m ≤ m ∧ A.getD (dup_scan_back A 0 x m) 0 = x ∧
        ∀ j : ℕ, j < dup_scan_back A 0 x m → A.getD j 0 < x := by
  intro m
  induction m with
  | zero =>
      intro _ hx
      exact ⟨le_refl _, by simpa [dup_scan_back_zero] using hx,
        fun j hj => by simp [dup_scan_back_zero] at hj⟩
  | succ m ih =>
      intro hm hx
      by_cases hprev : A.getD m 0 = x
      · have hrec := ih (by omega) hprev
        rw [dup_scan_back_succ, if_pos hprev]
        exact ⟨Nat.le_succ_of_le hrec.1, hrec.2.1, hrec.2.2⟩
      · have hlt : A.getD m 0 < x := by
          have hle : A.getD m 0 ≤ A.getD (m + 1) 0 := sorted_getD_mono hs (by omega) hm
          rw [hx] at hle
          exact lt_of_le_of_ne hle hprev
        rw [dup_scan_back_succ, if_neg hprev]
        refine ⟨le_refl _, hx, fun j hj => ?_⟩
        exact lt_of_le_of_lt (sorted_getD_mono hs (by omega) (by omega)) hlt

lemma left_loop_unfold (A : List ℚ) (x : ℚ) (l r : ℤ) :
    left_loop A 0 x l r =
      if l ≤ r then
        if A.getD ((l + r) / 2).toNat 0 < x then left_loop A 0 x ((l + r) / 2 + 1) r
        else if x < A.getD ((l + r) / 2).toNat 0 then left_loop A 0 x l ((l + r) / 2 - 1)
        else (dup_scan_back A 0 x ((l + r) / 2).toNat : ℤ)
      else l := by
  rw [left_loop]
  simp [get_wavelength_from_array]

lemma left_loop_spec {A : List ℚ} (hs : A.Sorted (· ≤ ·)) {x : ℚ}
    (hex : ∃ j : ℕ, j < A.length ∧ x ≤ A.getD j 0) :
    ∀ n : ℕ, ∀ l r : ℤ, (r + 1 - l).toNat = n → 0 ≤ l → r ≤ (A.length : ℤ) - 1 →
      l ≤ r + 1 →
      (∀ j : ℕ, (j : ℤ) < l → A.getD j 0 < x) →
      (∀ j : ℕ, (r : ℤ) < (j : ℤ) → j < A.length → x < A.getD j 0) →
      IsLowerBoundIndex A x (left_loop A 0 x l r) := by
  intro n
  induction n using Nat.strong_induction_on with
  | _ n ih =>
    intro l r hn hl0 hrlen hlr hbelow habove
    obtain ⟨j0, hj0len, hj0⟩ := hex
    have hAlen : 0 < A.length := by omega
    rw [left_loop_unfold]
    by_cases hle : l ≤ r
    · rw [if_pos hle]
      set mid : ℤ := (l + r) / 2 with hmid
      have hmid_ge : l ≤ mid := by omega
      have hmid_le : mid ≤ r := by omega
      have hmid0 : 0 ≤ mid := le_trans hl0 hmid_ge
      have hmidNat : (mid.toNat : ℤ) = mid := Int.toNat_of_nonneg hmid0
      have hmidlen : mid.toNat < A.length := by omega
      by_cases hv1 : A.getD mid.toNat 0 < x
      · rw [if_pos hv1]
        refine ih (r + 1 - (mid + 1)).toNat (by omega) (mid + 1) r (by omega) (by omega)
          hrlen (by omega) ?_ habove
        intro j hj
        exact lt_of_le_of_lt (sorted_getD_mono hs (by omega) hmidlen) hv1
      · rw [if_neg hv1]
        by_cases hv2 : x < A.getD mid.toNat 0
        · rw [if_pos hv2]
          refine ih (mid - 1 + 1 - l).toNat (by omega) l (mid - 1) (by omega) hl0
            (by omega) (by omega) hbelow ?_
          intro j hjgt hjlen
          exact lt_of_lt_of_le hv2 (sorted_getD_mono hs (by omega) hjlen)
        · rw [if_neg hv2]
          have hveq : A.getD mid.toNat 0 = x := le_antisymm (not_lt.mp hv2) (not_lt.mp hv1)
          have hscan := dup_scan_back_spec hs mid.toNat hmidlen hveq
          refine ⟨by omega, by omega, ?_, ?_⟩
          · simp only [Int.toNat_natCast]
            exact le_of_eq hscan.2.1.symm
          · intro j hj
            exact hscan.2.2 j (by omega)
    · rw [if_neg hle]
      have hlr' : l = r + 1 := by omega
      have hllen : l.toNat < A.length := by
        by_contra hc
        have := hbelow j0 (by omega)
        exact absurd hj0 (not_le.mpr this)
      refine ⟨hl0, by omega, ?_, fun j hj => hbelow j hj⟩
      have := habove l.toNat (by omega) hllen
      exact le_of_lt this

lemma left_search_unfold (A : List ℚ) (x : ℚ) (hne : A ≠ []) :
    binary_find_left_segment_index A 0 A.length x =
      if x ≤ A.getD 0 0 then 0
      else if A.getD (A.length - 1) 0 ≤ x then (A.length : ℤ) - 1
      else left_loop A 0 x 0 ((A.length : ℤ) - 1) := by
  have hlen : 0 < A.length := List.length_pos.mpr hne
  have htn : ((A.length : ℤ) - 1).toNat = A.length - 1 := by omega
  rw [binary_find_left_segment_index]
  simp only [get_wavelength_from_array, htn, Nat.cast_zero]

/-- Full case analysis of `binary_find_left_segment_index` called with
`low = 0, high = A.length` on a sorted nonempty array. -/
lemma left_search_cases {A : List ℚ} (hs : A.Sorted (· ≤ ·)) (hne : A ≠ []) (x : ℚ) :
    (x ≤ A.getD 0 0 ∧ binary_find_left_segment_index A 0 A.length x = 0) ∨
    (A.getD 0 0 < x ∧ A.getD (A.length - 1) 0 ≤ x ∧
      binary_find_left_segment_index A 0 A.length x = (A.length : ℤ) - 1) ∨
    (A.getD 0 0 < x ∧ x < A.getD (A.length - 1) 0 ∧
      IsLowerBoundIndex A x (binary_find_left_segment_index A 0 A.length x)) := by
  have hlen : 0 < A.length := List.length_pos.mpr hne
  rw [left_search_unfold A x hne]
  by_cases h1 : x ≤ A.getD 0 0
  · exact Or.inl ⟨h1, by rw [if_pos h1]⟩
  · rw [if_neg h1]
    by_cases h2 : A.getD (A.length - 1) 0 ≤ x
    · exact Or.inr (Or.inl ⟨not_le.mp h1, h2, by rw [if_pos h2]⟩)
    · rw [if_neg h2]
      refine Or.inr (Or.inr ⟨not_le.mp h1, not_le.mp h2, ?_⟩)
      refine left_loop_spec hs ⟨A.length - 1, by omega, le_of_lt (not_le.mp h2)⟩
        ((A.length : ℤ) - 1 + 1 - 0).toNat 0 ((A.length : ℤ) - 1) rfl (le_refl 0)
        (le_refl _) (by omega) (fun j hj => by omega) (fun j hj hjlen => by omega)

/-- Whenever the key does not exceed the whole array (first shortcut or loop case),
the left search returns the smallest index with value `≥ x`. -/
lemma left_search_lower_bound {A : List ℚ} (hs : A.Sorted (· ≤ ·)) (hne : A ≠ [])
    {x : ℚ} (hx : x ≤ A.getD 0 0 ∨ x < A.getD (A.length - 1) 0) :
    IsLowerBoundIndex A x (binary_find_left_segment_index A 0 A.length x) := by
  have hlen : 0 < A.length := List.length_pos.mpr hne
  rcases left_search_cases hs hne x with ⟨h1, heq⟩ | ⟨h1, h2, heq⟩ | ⟨h1, h2, hres⟩
  · rw [heq]
    exact ⟨le_refl 0, by omega, by simpa using h1, fun j hj => by omega⟩
  · rcases hx with hx | hx
    · exact absurd hx (not_le.mpr h1)
    · exact absurd h2 (not_le.mpr hx)
  · exact hres

/-- When the key strictly exceeds the first value and is at least the last value,
the left search returns the LAST index (not the smallest matching one). -/
lemma left_search_top {A : List ℚ} (hs : A.Sorted (· ≤ ·)) (hne : A ≠ []) {x : ℚ}
    (h1 : A.getD 0 0 < x) (h2 : A.getD (A.length - 1) 0 ≤ x) :
    binary_find_left_segment_index A 0 A.length x = (A.length : ℤ) - 1 := by
  rcases left_search_cases hs hne x with ⟨hc, _⟩ | ⟨_, _, heq⟩ | ⟨_, hc, _⟩
  · exact absurd hc (not_le.mpr h1)
  · exact heq
  · exact absurd h2 (not_le.mpr hc)

/-- The left search always lands inside the array. -/
lemma left_search_bounds {A : List ℚ} (hs : A.Sorted (· ≤ ·)) (hne : A ≠ []) (x : ℚ) :
    0 ≤ binary_find_left_segment_index A 0 A.length x ∧
      binary_find_left_segment_index A 0 A.length x ≤ (A.length : ℤ) - 1 := by
  have hlen : 0 < A.length := List.length_pos.mpr hne
  rcases left_search_cases hs hne x with ⟨_, heq⟩ | ⟨_, _, heq⟩ | ⟨_, _, hres⟩
  · rw [heq]; omega
  · rw [heq]; omega
  · obtain ⟨h0, hlt, _, _⟩ := hres
    omega

lemma right_loop_unfold (A : List ℚ) (low : ℕ) (x : ℚ) (l r : ℕ) :
    right_loop A low x l r =
      if l < r then
        if A.getD ((l + r) / 2 + low) 0 ≤ x then right_loop A low x ((l + r) / 2 + 1) r
        else right_loop A low x l ((l + r) / 2)
      else l := by
  rw [right_loop]
  simp [get_wavelength_from_array]

lemma right_loop_spec {A : List ℚ} (hs : A.Sorted (· ≤ ·)) {x : ℚ} {low : ℕ}
    (hlow : A.getD low 0 < x) :
    ∀ n : ℕ, ∀ l r : ℕ, r - l = n → 0 < r → l ≤ r → r + low ≤ A.length - 1 →
      low < A.length →
      (∀ j : ℕ, j < l → A.getD (j + low) 0 ≤ x) →
      (∀ j : ℕ, r ≤ j → j + low < A.length → x < A.getD (j + low) 0) →
      1 ≤ right_loop A low x l r ∧ right_loop A low x l r ≤ r ∧
        A.getD (right_loop A low x l r - 1 + low) 0 ≤ x ∧
        ∀ j : ℕ, right_loop A low x l r ≤ j → j + low < A.length →
          x < A.getD (j + low) 0 := by
  intro n
  induction n using Nat.strong_induction_on with
  | _ n ih =>
    intro l r hn hr0 hlr hrlen hlowlen hbelow habove
    rw [right_loop_unfold]
    by_cases hlt : l < r
    · rw [if_pos hlt]
      set mid : ℕ := (l + r) / 2 with hmid
      have hmid_ge : l ≤ mid := by omega
      have hmid_lt : mid < r := by omega
      have hmidlen : mid + low < A.length := by omega
      by_cases hv : A.getD (mid + low) 0 ≤ x
      · rw [if_pos hv]
        refine ih (r - (mid + 1)) (by omega) (mid + 1) r rfl hr0 (by omega) hrlen hlowlen
          ?_ habove
        intro j hj
        exact le_trans (sorted_getD_mono hs (by omega) hmidlen) hv
      · rw [if_neg hv]
        have hmid0 : 0 < mid := by
          rcases Nat.eq_zero_or_pos mid with h0 | h0
          · rw [h0] at hv
            exact absurd (le_of_lt hlow) (by simpa using hv)
          · exact h0
        have hrec := ih (mid - l) (by omega) l mid rfl hmid0 hmid_ge (by omega) hlowlen hbelow
          (fun j hj hjlen => lt_of_lt_of_le (not_le.mp hv) (sorted_getD_mono hs (by omega) hjlen))
        exact ⟨hrec.1, le_trans hrec.2.1 (by omega), hrec.2.2.1, hrec.2.2.2⟩
    · rw [if_neg hlt]
      have hleq : l = r := by omega
      refine ⟨by omega, by omega, ?_, ?_⟩
      · exact hbelow (l - 1) (by omega)
      · intro j hj hjlen
        exact habove j (by omega) hjlen

lemma right_search_unfold (A : List ℚ) (low : ℕ) (x : ℚ) (hne : A ≠ []) :
    binary_find_right_segment_index A low A.length x =
      if x ≤ A.getD low 0 then (low : ℤ)
      else if A.getD (A.length - 1) 0 ≤ x then (A.length : ℤ) - 1
      else (right_loop A low x 0 (A.length - 1 - low) : ℤ) + low - 1 := by
  have hlen : 0 < A.length := List.length_pos.mpr hne
  have htn : ((A.length : ℤ) - 1).toNat = A.length - 1 := by omega
  rw [binary_find_right_segment_index]
  simp only [get_wavelength_from_array, htn]

/-- Full case analysis of `binary_find_right_segment_index` called with a window
starting at `low` and `high = A.length`, on a sorted nonempty array. -/
lemma right_search_cases {A : List ℚ} (hs : A.Sorted (· ≤ ·)) (hne : A ≠ [])
    {low : ℕ} (hlow : low < A.length) (x : ℚ) :
    (x ≤ A.getD low 0 ∧ binary_find_right_segment_index A low A.length x = (low : ℤ)) ∨
    (A.getD low 0 < x ∧ A.getD (A.length - 1) 0 ≤ x ∧
      binary_find_right_segment_index A low A.length x = (A.length : ℤ) - 1) ∨
    (A.getD low 0 < x ∧ x < A.getD (A.length - 1) 0 ∧
      (low : ℤ) ≤ binary_find_right_segment_index A low A.length x ∧
      IsUpperMatchIndex A x (binary_find_right_segment_index A low A.length x)) := by
  have hlen : 0 < A.length := List.length_pos.mpr hne
  rw [right_search_unfold A low x hne]
  by_cases h1 : x ≤ A.getD low 0
  · exact Or.inl ⟨h1, by rw [if_pos h1]⟩
  · rw [if_neg h1]
    by_cases h2 : A.getD (A.length - 1) 0 ≤ x
    · exact Or.inr (Or.inl ⟨not_le.mp h1, h2, by rw [if_pos h2]⟩)
    · rw [if_neg h2]
      have h1' : A.getD low 0 < x := not_le.mp h1
      have h2' : x < A.getD (A.length - 1) 0 := not_le.mp h2
      have hlow_ne : low < A.length - 1 := by
        rcases Nat.lt_or_ge low (A.length - 1) with h | h
        · exact h
        · have : low = A.length - 1 := by omega
          rw [this] at h1'
          exact absurd (lt_trans h1' h2') (lt_irrefl _)
      have hloop := right_loop_spec hs h1' (A.length - 1 - low) 0 (A.length - 1 - low) rfl
        (by omega) (by omega) (by omega) hlow (fun j hj => by omega)
        (fun j hj hjlen => by
          have hj' : j + low = A.length - 1 := by omega
          rw [hj']
          exact h2')
      set res : ℕ := right_loop A low x 0 (A.length - 1 - low) with hres
      refine Or.inr (Or.inr ⟨h1', h2', by omega, ?_, ?_, ?_, ?_⟩)
      · omega
      · omega
      · have htn : ((res : ℤ) + low - 1).toNat = res - 1 + low := by omega
        rw [htn]
        exact hloop.2.2.1
      · intro j hjgt hjlen
        have hj' : res ≤ j - low ∧ j - low + low = j := by omega
        rw [← hj'.2]
        exact hloop.2.2.2 (j - low) hj'.1 (by omega)

lemma foldl_min_le_init (l : List ℚ) : ∀ init : ℚ, l.foldl min init ≤ init := by
  induction l with
  | nil => intro init; simp
  | cons a l ih => intro init; exact le_trans (ih (min init a)) (min_le_left _ _)

lemma foldl_min_le_mem (l : List ℚ) : ∀ (init a : ℚ), a ∈ l → l.foldl min init ≤ a := by
  induction l with
  | nil => intro init a ha; simp at ha
  | cons b l ih =>
      intro init a ha
      rcases List.mem_cons.mp ha with rfl | ha
      · exact le_trans (foldl_min_le_init l _) (min_le_right _ _)
      · exact ih _ _ ha

lemma np_min_le {l : List ℚ} {a : ℚ} (h : a ∈ l) : np_min l ≤ a := by
  cases l with
  | nil => simp at h
  | cons b l =>
      rcases List.mem_cons.mp h with rfl | h
      · exact foldl_min_le_init l a
      · exact foldl_min_le_mem l b a h

lemma init_le_foldl_max (l : List ℚ) : ∀ init : ℚ, init ≤ l.foldl max init := by
  induction l with
  | nil => intro init; simp
  | cons a l ih => intro init; exact le_trans (le_max_left _ _) (ih (max init a))

lemma mem_le_foldl_max (l : List ℚ) : ∀ (init a : ℚ), a ∈ l → a ≤ l.foldl max init := by
  induction l with
  | nil => intro init a ha; simp at ha
  | cons b l ih =>
      intro init a ha
      rcases List.mem_cons.mp ha with rfl | ha
      · exact le_trans (le_max_right _ _) (init_le_foldl_max l _)
      · exact ih _ _ ha

lemma le_np_max {l : List ℚ} {a : ℚ} (h : a ∈ l) : a ≤ np_max l := by
  cases l with
  | nil => simp at h
  | cons b l =>
      rcases List.mem_cons.mp h with rfl | h
      · exact init_le_foldl_max l a
      · exact mem_le_foldl_max l b a h

/-- A block that shares a point with some segment survives the envelope fast
reject. -/
lemma block_in_envelope_of_seg {W : List ℚ} {segs : List (ℚ × ℚ)}
    (hs : W.Sorted (· ≤ ·)) (hne : W ≠ []) {b e : ℚ} (hmem : (b, e) ∈ segs)
    {j : ℕ} (hj : j < W.length) (hbj : b ≤ W.getD j 0) (hje : W.getD j 0 ≤ e) :
    block_in_envelope W W.length segs := by
  have hlen : 0 < W.length := List.length_pos.mpr hne
  have hbmem : b ∈ segs.map Prod.fst := List.mem_map_of_mem Prod.fst hmem
  have hemem : e ∈ segs.map Prod.snd := List.mem_map_of_mem Prod.snd hmem
  rw [block_in_envelope]
  push_neg
  constructor
  · simp only [get_wavelength_from_array]
    calc np_min (segs.map Prod.fst) ≤ b := np_min_le hbmem
      _ ≤ W.getD j 0 := hbj
      _ ≤ W.getD (W.length - 1) 0 := sorted_getD_mono hs (by omega) (by omega)
  · simp only [get_wavelength_from_array]
    calc W.getD 0 0 ≤ W.getD j 0 := sorted_getD_mono hs (by omega) hj
      _ ≤ e := hje
      _ ≤ np_max (segs.map Prod.snd) := le_np_max hemem

/-- A segment whose window lies entirely off the block's wavelength span records
nothing: the containment check after the left search fails. -/
lemma seg_match_none_of_outside {W : List ℚ} (hs : W.Sorted (· ≤ ·)) (hne : W ≠ [])
    {b e : ℚ} (hout : W.getD (W.length - 1) 0 < b ∨ e < W.getD 0 0) :
    seg_match W W.length (b, e) = none := by
  have hlen : 0 < W.length := List.length_pos.mpr hne
  have hbs := left_search_bounds hs hne b
  rw [seg_match]
  simp only [get_wavelength_from_array]
  rw [if_neg]
  push_neg
  intro hble
  set iZ := binary_find_left_segment_index W 0 W.length b with hiZ
  rcases hout with hout | hout
  · exact absurd hble
      (not_le.mpr (lt_of_le_of_lt (sorted_getD_mono hs (by omega) (by omega)) hout))
  · exact lt_of_lt_of_le hout (sorted_getD_mono hs (Nat.zero_le _) (by omega))

/-- A block fully inside a segment whose end strictly exceeds the block's first
wavelength matches as the full range `(0, N)`. -/
lemma seg_match_full {W : List ℚ} (hs : W.Sorted (· ≤ ·)) (hne : W ≠ []) {b e : ℚ}
    (hb : b ≤ W.getD 0 0) (he : W.getD (W.length - 1) 0 ≤ e)
    (hstrict : W.getD 0 0 < e) :
    seg_match W W.length (b, e) = some (0, W.length) := by
  have hlen : 0 < W.length := List.length_pos.mpr hne
  have hleft : binary_find_left_segment_index W 0 W.length b = 0 := by
    rcases left_search_cases hs hne b with ⟨_, heq⟩ | ⟨hc, _, _⟩ | ⟨hc, _, _⟩
    · exact heq
    · exact absurd hb (not_le.mpr hc)
    · exact absurd hb (not_le.mpr hc)
  have hright : binary_find_right_segment_index W 0 W.length e = (W.length : ℤ) - 1 := by
    rcases right_search_cases hs hne hlen e with ⟨hc, _⟩ | ⟨_, _, heq⟩ | ⟨_, hc, _, _⟩
    · exact absurd hstrict (not_lt.mpr hc)
    · exact heq
    · exact absurd he (not_le.mpr hc)
  rw [seg_match]
  simp only [get_wavelength_from_array, hleft, Int.toNat_zero]
  rw [if_pos ⟨hb, le_trans (sorted_getD_mono hs (by omega) (by omega)) he⟩, hright]
  have h1 : ((W.length : ℤ) - 1).toNat = W.length - 1 := by omega
  have h2 : W.length - 1 + 1 = W.length := by omega
  rw [h1, h2]

lemma seg_match_eq_some {W : List ℚ} {N : ℕ} {b e : ℚ}
    (hchk : b ≤ W.getD (binary_find_left_segment_index W 0 N b).toNat 0 ∧
      W.getD (binary_find_left_segment_index W 0 N b).toNat 0 ≤ e) :
    seg_match W N (b, e) =
      some ((binary_find_left_segment_index W 0 N b).toNat,
        (binary_find_right_segment_index W
          (binary_find_left_segment_index W 0 N b).toNat N e).toNat + 1) := by
  rw [seg_match]
  simp only [get_wavelength_from_array]
  rw [if_pos hchk]

lemma seg_match_eq_none {W : List ℚ} {N : ℕ} {b e : ℚ}
    (hchk : ¬(b ≤ W.getD (binary_find_left_segment_index W 0 N b).toNat 0 ∧
      W.getD (binary_find_left_segment_index W 0 N b).toNat 0 ≤ e)) :
    seg_match W N (b, e) = none := by
  rw [seg_match]
  simp only [get_wavelength_from_array]
  rw [if_neg hchk]

/-- If some in-range wavelength lies in the window, the containment check after
the left search passes. -/
lemma seg_check_of_point {W : List ℚ} (hs : W.Sorted (· ≤ ·)) (hne : W ≠ [])
    {b e : ℚ} {j : ℕ} (hj : j < W.length) (hbj : b ≤ W.getD j 0)
    (hje : W.getD j 0 ≤ e) :
    b ≤ W.getD (binary_find_left_segment_index W 0 W.length b).toNat 0 ∧
      W.getD (binary_find_left_segment_index W 0 W.length b).toNat 0 ≤ e := by
  have hlen : 0 < W.length := List.length_pos.mpr hne
  rcases left_search_cases hs hne b with ⟨h1, heq⟩ | ⟨h1, h2, heq⟩ | ⟨h1, h2, hres⟩
  · rw [heq]
    exact ⟨by simpa using h1,
      le_trans (sorted_getD_mono hs (Nat.zero_le _) hj) hje⟩
  · rw [heq]
    have htn : (((W.length : ℤ) - 1)).toNat = W.length - 1 := by omega
    rw [htn]
    have hjle : W.getD j 0 ≤ W.getD (W.length - 1) 0 := sorted_getD_mono hs (by omega) (by omega)
    exact ⟨le_trans hbj hjle, le_trans h2 (le_trans hbj hje)⟩
  · obtain ⟨h0, hlt, hxle, hforall⟩ := hres
    refine ⟨hxle, ?_⟩
    have hres_le_j : (binary_find_left_segment_index W 0 W.length b).toNat ≤ j := by
      by_contra hc
      exact absurd hbj (not_le.mpr (hforall j (by omega)))
    exact le_trans (sorted_getD_mono hs hres_le_j hj) hje

/-- On a strictly sorted block, the left search never lands beyond an in-window
index. -/
lemma left_search_le_point {W : List ℚ} (hs : W.Sorted (· < ·)) (hne : W ≠ [])
    {b : ℚ} {j : ℕ} (hj : j < W.length) (hbj : b ≤ W.getD j 0) :
    binary_find_left_segment_index W 0 W.length b ≤ (j : ℤ) := by
  have hs' : W.Sorted (· ≤ ·) := hs.imp le_of_lt
  have hlen : 0 < W.length := List.length_pos.mpr hne
  rcases left_search_cases hs' hne b with ⟨h1, heq⟩ | ⟨h1, h2, heq⟩ | ⟨h1, h2, hres⟩
  · rw [heq]; omega
  · rw [heq]
    by_contra hc
    have hjlt : j < W.length - 1 := by omega
    have := strict_sorted_getD_lt hs hjlt (by omega)
    exact absurd (le_trans h2 hbj) (not_le.mpr this)
  · obtain ⟨h0, hlt, hxle, hforall⟩ := hres
    by_contra hc
    exact absurd hbj (not_le.mpr (hforall j (by omega)))

/-- On a strictly sorted block, the right search never lands before an in-window
index at or past `low`. -/
lemma right_search_ge_point {W : List ℚ} (hs : W.Sorted (· < ·)) (hne : W ≠ [])
    {e : ℚ} {low j : ℕ} (hlow : low < W.length) (hj : j < W.length) (hlj : low ≤ j)
    (hje : W.getD j 0 ≤ e) :
    (j : ℤ) ≤ binary_find_right_segment_index W low W.length e := by
  have hs' : W.Sorted (· ≤ ·) := hs.imp le_of_lt
  have hlen : 0 < W.length := List.length_pos.mpr hne
  rcases right_search_cases hs' hne hlow e with ⟨h1, heq⟩ | ⟨h1, h2, heq⟩ | ⟨h1, h2, hge, hres⟩
  · rw [heq]
    by_contra hc
    have hlowlt : low < j := by omega
    have := strict_sorted_getD_lt hs hlowlt hj
    exact absurd (le_trans hje h1) (not_le.mpr this)
  · rw [heq]; omega
  · obtain ⟨h0, hlt, hle, hforall⟩ := hres
    by_contra hc
    exact absurd hje (not_le.mpr (hforall j (by omega) hj))

/-- Everything from `low` up to the right-search result is inside the window. -/
lemma right_search_range {W : List ℚ} (hs : W.Sorted (· ≤ ·)) (hne : W ≠ [])
    {e : ℚ} {low : ℕ} (hlow : low < W.length) (hchk : W.getD low 0 ≤ e) :
    (low : ℤ) ≤ binary_find_right_segment_index W low W.length e ∧
      binary_find_right_segment_index W low W.length e < W.length ∧
      ∀ j : ℕ, low ≤ j → (j : ℤ) ≤ binary_find_right_segment_index W low W.length e →
        j < W.length → W.getD j 0 ≤ e := by
  have hlen : 0 < W.length := List.length_pos.mpr hne
  rcases right_search_cases hs hne hlow e with ⟨h1, heq⟩ | ⟨h1, h2, heq⟩ | ⟨h1, h2, hge, hres⟩
  · rw [heq]
    refine ⟨le_refl _, by omega, fun j hj1 hj2 hj3 => ?_⟩
    have : j = low := by omega
    rw [this]; exact hchk
  · rw [heq]
    refine ⟨by omega, by omega, fun j hj1 hj2 hj3 => ?_⟩
    exact le_trans (sorted_getD_mono hs (by omega) (by omega)) h2
  · obtain ⟨h0, hlt, hle, hforall⟩ := hres
    refine ⟨hge, by omega, fun j hj1 hj2 hj3 => ?_⟩
    set rZ := binary_find_right_segment_index W low W.length e with hrZ
    have hjr : j ≤ rZ.toNat := by omega
    exact le_trans (sorted_getD_mono hs hjr (by omega)) hle

lemma mem_range'_iff {s n j : ℕ} : j ∈ List.range' s n ↔ s ≤ j ∧ j < s + n := by
  constructor
  · intro h
    obtain ⟨i, hi, rfl⟩ := List.mem_range'.mp h
    omega
  · intro ⟨h1, h2⟩
    exact List.mem_range'.mpr ⟨j - s, by omega, by omega⟩

/-- On a strictly sorted block, a data line is recorded for a segment exactly when
its wavelength lies inside the segment window. -/
lemma mem_written_seg_match_iff {W : List ℚ} (hs : W.Sorted (· < ·)) (hne : W ≠ [])
    (b e : ℚ) {j : ℕ} (hj : j < W.length) :
    j ∈ written_indices (seg_match W W.length (b, e)).toList ↔
      b ≤ W.getD j 0 ∧ W.getD j 0 ≤ e := by
  have hs' : W.Sorted (· ≤ ·) := hs.imp fun h => le_of_lt h
  have hlen : 0 < W.length := List.length_pos.mpr hne
  have hbs := left_search_bounds hs' hne b
  constructor
  · intro hmem
    by_cases hchk : b ≤ W.getD (binary_find_left_segment_index W 0 W.length b).toNat 0 ∧
        W.getD (binary_find_left_segment_index W 0 W.length b).toNat 0 ≤ e
    · rw [seg_match_eq_some hchk] at hmem
      set iS : ℕ := (binary_find_left_segment_index W 0 W.length b).toNat with hiS
      set eZ : ℤ := binary_find_right_segment_index W iS W.length e with heZ
      have hiSlen : iS < W.length := by omega
      have hrange := right_search_range hs' hne hiSlen hchk.2
      simp only [Option.toList_some, written_indices, List.flatMap_cons,
        List.flatMap_nil, List.append_nil] at hmem
      rw [mem_range'_iff] at hmem
      have hjiS : iS ≤ j := by omega
      have hjE : (j : ℤ) ≤ eZ := by omega
      refine ⟨le_trans hchk.1 (sorted_getD_mono hs' hjiS hj), ?_⟩
      exact hrange.2.2 j hjiS hjE hj
    · rw [seg_match_eq_none hchk] at hmem
      simp [written_indices] at hmem
  · rintro ⟨hbj, hje⟩
    have hchk := seg_check_of_point hs' hne hj hbj hje
    rw [seg_match_eq_some hchk]
    set iS : ℕ := (binary_find_left_segment_index W 0 W.length b).toNat with hiS
    set eZ : ℤ := binary_find_right_segment_index W iS W.length e with heZ
    have hiSlen : iS < W.length := by omega
    have hrange := right_search_range hs' hne hiSlen hchk.2
    have hjiS : iS ≤ j := by
      have := left_search_le_point hs hne hj hbj
      omega
    have hjE : (j : ℤ) ≤ eZ := right_search_ge_point hs hne hiSlen hj hjiS hje
    simp only [Option.toList_some, written_indices, List.flatMap_cons,
      List.flatMap_nil, List.append_nil]
    rw [mem_range'_iff]
    omega

lemma written_indices_append (l1 l2 : List (ℕ × ℕ)) :
    written_indices (l1 ++ l2) = written_indices l1 ++ written_indices l2 := by
  simp [written_indices]

lemma write_lines_count_eq_length (ranges : List (ℕ × ℕ)) :
    write_lines_count ranges = (written_indices ranges).length := by
  induction ranges with
  | nil => simp [write_lines_count, written_indices]
  | cons p rest ih =>
      simp only [write_lines_count, written_indices, List.flatMap_cons, List.map_cons,
        List.sum_cons, List.length_append, List.length_range'] at *
      omega

/-- Per-block, merged layout: the number of times a data line is written equals the
number of segments whose window contains its wavelength (strictly sorted block). -/
lemma count_written_filterMap {W : List ℚ} (hs : W.Sorted (· < ·)) (hne : W ≠ [])
    {j : ℕ} (hj : j < W.length) :
    ∀ segs : List (ℚ × ℚ),
      (written_indices (segs.filterMap (seg_match W W.length))).count j =
        segs.countP (fun s => decide (s.1 ≤ W.getD j 0 ∧ W.getD j 0 ≤ s.2)) := by
  intro segs
  induction segs with
  | nil => simp [written_indices]
  | cons s rest ih =>
      have hhead : (written_indices (seg_match W W.length s).toList).count j =
          if s.1 ≤ W.getD j 0 ∧ W.getD j 0 ≤ s.2 then 1 else 0 := by
        by_cases hp : s.1 ≤ W.getD j 0 ∧ W.getD j 0 ≤ s.2
        · rw [if_pos hp]
          have hmem : j ∈ written_indices (seg_match W W.length s).toList :=
            (mem_written_seg_match_iff hs hne s.1 s.2 hj).mpr hp
          have hnodup : (written_indices (seg_match W W.length s).toList).Nodup := by
            rcases hsm : seg_match W W.length s with _ | p
            · simp [written_indices]
            · simp only [Option.toList_some, written_indices, List.flatMap_cons,
                List.flatMap_nil, List.append_nil]
              apply List.nodup_range'
              decide
          exact List.count_eq_one_of_mem hnodup hmem
        · rw [if_neg hp]
          refine List.count_eq_zero_of_not_mem (fun hmem => hp ?_)
          exact (mem_written_seg_match_iff hs hne s.1 s.2 hj).mp hmem
      have hsplitlist : (s :: rest).filterMap (seg_match W W.length) =
          (seg_match W W.length s).toList ++ rest.filterMap (seg_match W W.length) := by
        rcases hsm : seg_match W W.length s with _ | p <;>
          simp [List.filterMap_cons, hsm]
      rw [hsplitlist, written_indices_append, List.count_append, hhead, ih,
        List.countP_cons]
      simp only [decide_eq_true_eq]
      by_cases hp : s.1 ≤ W.getD j 0 ∧ W.getD j 0 ≤ s.2
      · rw [if_pos hp]
        omega
      · rw [if_neg hp]
        omega

/-!  ## Claim theorems  -/

/-- C1 counterexample: the claim asserts that on `[12, 20, 32, 40, 52]` the left
search returns `5` for `b = 53`; the code returns the last index `4`. -/
theorem C1_counterexample :
    binary_find_left_segment_index [12, 20, 32, 40, 52] 0 5 53 = 4 ∧
    binary_find_left_segment_index [12, 20, 32, 40, 52] 0 5 53 ≠ 5 := by decide

/-- C1 (amended): for every ascending-sorted nonempty wavelength array `A`, the
left search with `low = 0, high = |A|` returns the smallest index `i` with
`A[i] ≥ b` whenever `b ≤ A[0]` or `b < A[|A|-1]`; when `A[0] < b` and
`A[|A|-1] ≤ b` it returns the LAST index `|A|-1` (so on the example array it
returns 1, 1, 2, 4 for b = 13, 20, 21, 52, and 4 — not 5 — for b = 53). -/
theorem C1_left_bound_locator_amended (A : List ℚ) (x : ℚ) (hs : A.Sorted (· ≤ ·))
    (hne : A ≠ []) :
    (x ≤ A.getD 0 0 ∨ x < A.getD (A.length - 1) 0 →
      IsLowerBoundIndex A x (binary_find_left_segment_index A 0 A.length x)) ∧
    (A.getD 0 0 < x → A.getD (A.length - 1) 0 ≤ x →
      binary_find_left_segment_index A 0 A.length x = (A.length : ℤ) - 1) :=
  ⟨fun h => left_search_lower_bound hs hne h,
   fun h1 h2 => left_search_top hs hne h1 h2⟩

/-- C1 witness: the amended claim instantiated on the spec's example array at
`b = 13` (loop case) and `b = 53` (last-index case). -/
theorem C1_witness :
    IsLowerBoundIndex [12, 20, 32, 40, 52] 13
      (binary_find_left_segment_index [12, 20, 32, 40, 52] 0 5 13) ∧
    binary_find_left_segment_index [12, 20, 32, 40, 52] 0 5 53 = 4 := by
  have h13 := C1_left_bound_locator_amended [12, 20, 32, 40, 52] 13 (by decide) (by decide)
  have h53 := C1_left_bound_locator_amended [12, 20, 32, 40, 52] 53 (by decide) (by decide)
  refine ⟨h13.1 (Or.inr (by decide)), ?_⟩
  have := h53.2 (by decide) (by decide)
  simpa using this

/-- C2 counterexample: the claim asserts that on `[12, 20, 32, 40, 52]` the right
search returns `3` for `e = 52`; the code returns `4`. -/
theorem C2_counterexample :
    binary_find_right_segment_index [12, 20, 32, 40, 52] 0 5 52 = 4 ∧
    binary_find_right_segment_index [12, 20, 32, 40, 52] 0 5 52 ≠ 3 := by decide

/-- C2 (amended): for every ascending-sorted nonempty wavelength array `A`, the
right search with `low = 0, high = |A|` returns the largest index `j` with
`A[j] ≤ e` whenever `A[0] < e`; when `e ≤ A[0]` it returns `0` (so on the example
array it returns 0, 1, 1 for e = 13, 20, 21, and 4 — not 3 — for e = 52, and 4
for e = 53). -/
theorem C2_right_bound_locator_amended (A : List ℚ) (x : ℚ) (hs : A.Sorted (· ≤ ·))
    (hne : A ≠ []) :
    (A.getD 0 0 < x →
      IsUpperMatchIndex A x (binary_find_right_segment_index A 0 A.length x)) ∧
    (x ≤ A.getD 0 0 → binary_find_right_segment_index A 0 A.length x = 0) := by
  have hlen : 0 < A.length := List.length_pos.mpr hne
  rcases right_search_cases hs hne hlen x with ⟨h1, heq⟩ | ⟨h1, h2, heq⟩ | ⟨h1, h2, hge, hres⟩
  · refine ⟨fun hc => absurd h1 (not_le.mpr hc), fun _ => by simpa using heq⟩
  · refine ⟨fun _ => ?_, fun hc => absurd hc (not_le.mpr h1)⟩
    rw [heq]
    refine ⟨by omega, by omega, ?_, fun j hj1 hj2 => by omega⟩
    have htn : (((A.length : ℤ) - 1)).toNat = A.length - 1 := by omega
    rw [htn]
    exact h2
  · exact ⟨fun _ => hres, fun hc => absurd hc (not_le.mpr h1)⟩

/-- C2 witness: the amended claim instantiated on the spec's example array at
`e = 21`. -/
theorem C2_witness :
    IsUpperMatchIndex [12, 20, 32, 40, 52] 21
      (binary_find_right_segment_index [12, 20, 32, 40, 52] 0 5 21) := by
  have h := C2_right_bound_locator_amended [12, 20, 32, 40, 52] 21 (by decide) (by decide)
  exact h.1 (by decide)

/-- C5 counterexample: on `[1, 2, 2]` with key `2`, the duplicate run `2, 2`
reaches the last index, the `b ≥ A[high]` shortcut fires, and the left search
returns `2`, not the first occurrence `1`. -/
theorem C5_counterexample :
    binary_find_left_segment_index [1, 2, 2] 0 3 2 = 2 ∧
    binary_find_left_segment_index [1, 2, 2] 0 3 2 ≠ 1 := by decide

/-- C5 (amended): for every ascending-sorted nonempty array containing the key
`x` at some index, PROVIDED `x` is strictly below the array's last value (the
duplicate run does not reach the last index), the left search returns the index
of the first occurrence of `x`. -/
theorem C5_first_occurrence_amended (A : List ℚ) (x : ℚ) (hs : A.Sorted (· ≤ ·))
    (hne : A ≠ []) (k : ℕ) (hk : k < A.length) (hkx : A.getD k 0 = x)
    (hlast : x < A.getD (A.length - 1) 0) :
    0 ≤ binary_find_left_segment_index A 0 A.length x ∧
    A.getD (binary_find_left_segment_index A 0 A.length x).toNat 0 = x ∧
    ∀ j : ℕ, (j : ℤ) < binary_find_left_segment_index A 0 A.length x →
      A.getD j 0 ≠ x := by
  obtain ⟨h0, hlt, hge, hbel⟩ := left_search_lower_bound hs hne (Or.inr hlast)
  refine ⟨h0, ?_, fun j hj => ne_of_lt (hbel j hj)⟩
  have hreskZ : binary_find_left_segment_index A 0 A.length x ≤ (k : ℤ) := by
    by_contra hc
    exact absurd (le_of_eq hkx.symm) (not_le.mpr (hbel k (by omega)))
  have h1 : A.getD (binary_find_left_segment_index A 0 A.length x).toNat 0 ≤ A.getD k 0 :=
    sorted_getD_mono hs (by omega) hk
  rw [hkx] at h1
  exact le_antisymm h1 hge

/-- C5 witness: the amended claim instantiated on `[1, 2, 2, 3]` with key `2`
(duplicate run not touching the last index). -/
theorem C5_witness :
    0 ≤ binary_find_left_segment_index [1, 2, 2, 3] 0 4 2 ∧
    ([1, 2, 2, 3] : List ℚ).getD (binary_find_left_segment_index [1, 2, 2, 3] 0 4 2).toNat 0 = 2 ∧
    ∀ j : ℕ, (j : ℤ) < binary_find_left_segment_index [1, 2, 2, 3] 0 4 2 →
      ([1, 2, 2, 3] : List ℚ).getD j 0 ≠ 2 :=
  C5_first_occurrence_amended [1, 2, 2, 3] 2 (by decide) (by decide) 1 (by decide)
    (by decide) (by decide)

/-- C6 counterexample: the block `[5, 5]` (declared count 2) lies fully inside the
single requested segment `[5, 5]`, yet only 1 line is written and the rewritten
header count is 1, because the right search's `e ≤ A[low]` shortcut stops at the
first duplicate. -/
theorem C6_counterexample :
    write_lines_count (block_ranges [5, 5] 2 [(5, 5)]) = 1 ∧
    (written_indices (block_ranges [5, 5] 2 [(5, 5)])).length = 1 ∧
    (1 : ℕ) ≠ 2 := by decide

/-- C6 (amended): for a sorted nonempty block whose whole wavelength range lies
inside one segment `(b, e)` matched by no other segment, PROVIDED the segment end
strictly exceeds the block's first wavelength (`W[0] < e`), the number of data
lines written equals the block's declared count `|W|` exactly, and the rewritten
header count equals that same `|W|`. -/
theorem C6_conservation_amended (W : List ℚ) (b e : ℚ) (l1 l2 : List (ℚ × ℚ))
    (hs : W.Sorted (· ≤ ·)) (hne : W ≠ [])
    (hb : b ≤ W.getD 0 0) (he : W.getD (W.length - 1) 0 ≤ e)
    (hstrict : W.getD 0 0 < e)
    (hl1 : ∀ s ∈ l1, seg_match W W.length s = none)
    (hl2 : ∀ s ∈ l2, seg_match W W.length s = none) :
    write_lines_count (block_ranges W W.length (l1 ++ (b, e) :: l2)) = W.length ∧
    (written_indices (block_ranges W W.length (l1 ++ (b, e) :: l2))).length =
      W.length := by
  have hlen : 0 < W.length := List.length_pos.mpr hne
  have hmem : (b, e) ∈ l1 ++ (b, e) :: l2 := by simp
  have henv : block_in_envelope W W.length (l1 ++ (b, e) :: l2) :=
    block_in_envelope_of_seg hs hne hmem (by omega) hb
      (le_trans (sorted_getD_mono hs (by omega) (by omega)) he)
  have hranges : block_ranges W W.length (l1 ++ (b, e) :: l2) = [(0, W.length)] := by
    rw [block_ranges, if_pos henv, List.filterMap_append, List.filterMap_cons,
      seg_match_full hs hne hb he hstrict]
    rw [List.filterMap_eq_nil_iff.mpr hl1, List.filterMap_eq_nil_iff.mpr hl2]
    simp
  rw [hranges]
  constructor
  · simp [write_lines_count]
  · simp [written_indices]

/-- C6 witness: block `[2, 3]` fully inside the single segment `(1, 4)`. -/
theorem C6_witness :
    write_lines_count (block_ranges [2, 3] 2 [(1, 4)]) = 2 ∧
    (written_indices (block_ranges [2, 3] 2 [(1, 4)])).length = 2 :=
  C6_conservation_amended [2, 3] 1 4 [] [] (by decide) (by decide) (by decide)
    (by decide) (by decide) (by simp) (by simp)

/-- C7: a block whose wavelength span lies entirely outside every requested
segment contributes zero data lines to the merged group and to every per-segment
group, and when its span misses the global envelope no boundary search is
performed at all. -/
theorem C7_exclusion (W : List ℚ) (segs : List (ℚ × ℚ)) (hs : W.Sorted (· ≤ ·))
    (hne : W ≠ [])
    (hout : ∀ s ∈ segs, W.getD (W.length - 1) 0 < s.1 ∨ s.2 < W.getD 0 0) :
    written_indices (block_ranges W W.length segs) = [] ∧
    (∀ i : ℕ, i < segs.length →
      written_indices (block_ranges_lbl W W.length segs i) = []) ∧
    (¬ block_in_envelope W W.length segs → block_search_count W W.length segs = 0) := by
  have hall : ∀ s ∈ segs, seg_match W W.length s = none := by
    intro s hsmem
    have := hout s hsmem
    have heq : (s.1, s.2) = s := rfl
    rw [← heq]
    exact seg_match_none_of_outside hs hne this
  refine ⟨?_, ?_, ?_⟩
  · rw [block_ranges]
    by_cases henv : block_in_envelope W W.length segs
    · rw [if_pos henv, List.filterMap_eq_nil_iff.mpr hall]
      simp [written_indices]
    · rw [if_neg henv]
      simp [written_indices]
  · intro i hi
    rw [block_ranges_lbl]
    by_cases henv : block_in_envelope W W.length segs
    · have hmemi : segs.getD i (0, 0) ∈ segs := by
        simp only [List.getD_eq_getElem?_getD, List.getElem?_eq_getElem hi, Option.getD_some]
        exact List.getElem_mem hi
      rw [if_pos henv, hall (segs.getD i (0, 0)) hmemi]
      simp [written_indices]
    · rw [if_neg henv]
      simp [written_indices]
  · intro henv
    rw [block_search_count, if_neg henv]

/-- C7 witness: block `[5, 6]` against the single segment `(1, 2)` (entirely
below the block, and missing the envelope). -/
theorem C7_witness :
    written_indices (block_ranges [5, 6] 2 [(1, 2)]) = [] ∧
    (∀ i : ℕ, i < 1 → written_indices (block_ranges_lbl [5, 6] 2 [(1, 2)] i) = []) ∧
    (¬ block_in_envelope [5, 6] 2 [(1, 2)] → block_search_count [5, 6] 2 [(1, 2)] = 0) :=
  C7_exclusion [5, 6] [(1, 2)] (by decide) (by decide)
    (by intro s hsmem; simp at hsmem; subst hsmem; exact Or.inr (by decide))

/-- C8: with two requested segments whose matched line sets form a disjoint
partition of the block's data lines, the concatenation of the two per-segment
(`lbl=True`) outputs' matched lines equals, as a set, the matched lines of the
single merged (`lbl=False`) output. -/
theorem C8_merged_equals_per_segment (W : List ℚ) (s1 s2 : ℚ × ℚ)
    (hdisj : ∀ j : ℕ, j < W.length →
      ¬(j ∈ written_indices (block_ranges_lbl W W.length [s1, s2] 0) ∧
        j ∈ written_indices (block_ranges_lbl W W.length [s1, s2] 1)))
    (hcover : ∀ j : ℕ, j < W.length →
      j ∈ written_indices (block_ranges_lbl W W.length [s1, s2] 0) ∨
      j ∈ written_indices (block_ranges_lbl W W.length [s1, s2] 1)) :
    ∀ j : ℕ,
      (j ∈ written_indices (block_ranges_lbl W W.length [s1, s2] 0) ++
        written_indices (block_ranges_lbl W W.length [s1, s2] 1) ↔
      j ∈ written_indices (block_ranges W W.length [s1, s2])) := by
  intro j
  have hkey : block_ranges W W.length [s1, s2] =
      block_ranges_lbl W W.length [s1, s2] 0 ++ block_ranges_lbl W W.length [s1, s2] 1 := by
    by_cases henv : block_in_envelope W W.length [s1, s2]
    · rw [block_ranges, block_ranges_lbl, block_ranges_lbl, if_pos henv, if_pos henv,
        if_pos henv]
      simp only [List.filterMap_cons, List.filterMap_nil, List.getD_cons_zero,
        List.getD_cons_succ]
      cases seg_match W W.length s1 <;> cases seg_match W W.length s2 <;> simp
    · rw [block_ranges, block_ranges_lbl, block_ranges_lbl, if_neg henv, if_neg henv,
        if_neg henv]
      simp
  rw [hkey, written_indices_append]

/-- C8 witness: block `[1, 2]` with segments `(1, 1)` and `(2, 2)`, whose matched
sets `{0}` and `{1}` disjointly cover the block. -/
theorem C8_witness :
    (0 ∈ written_indices (block_ranges_lbl [1, 2] 2 [(1, 1), (2, 2)] 0) ++
      written_indices (block_ranges_lbl [1, 2] 2 [(1, 1), (2, 2)] 1) ↔
      0 ∈ written_indices (block_ranges [1, 2] 2 [(1, 1), (2, 2)])) ∧
    (1 ∈ written_indices (block_ranges_lbl [1, 2] 2 [(1, 1), (2, 2)] 0) ++
      written_indices (block_ranges_lbl [1, 2] 2 [(1, 1), (2, 2)] 1) ↔
      1 ∈ written_indices (block_ranges [1, 2] 2 [(1, 1), (2, 2)])) :=
  ⟨C8_merged_equals_per_segment [1, 2] (1, 1) (2, 2) (by decide) (by decide) 0,
   C8_merged_equals_per_segment [1, 2] (1, 1) (2, 2) (by decide) (by decide) 1⟩

/-- C10 counterexample: in the merged layout, data line 1 of block `[1, 2, 2]`
has wavelength 2 inside both copies of segment `(2, 3)` and both segments pass
the containment check, yet the line is written 0 times, not 2: the left search's
`b ≥ A[high]` shortcut lands past the duplicate run. -/
theorem C10_counterexample :
    ((2 : ℚ) ≤ ([1, 2, 2] : List ℚ).getD 1 0 ∧ ([1, 2, 2] : List ℚ).getD 1 0 ≤ 3) ∧
    (seg_match [1, 2, 2] 3 (2, 3)).isSome = true ∧
    (written_indices (block_ranges [1, 2, 2] 3 [(2, 3), (2, 3)])).count 1 = 0 ∧
    (0 : ℕ) ≠ 2 := by decide

/-- C10 (amended): in the merged layout (`lbl=False`), on a STRICTLY sorted block
(pairwise-distinct wavelengths), a data line whose wavelength falls inside `k` of
the supplied segments is written exactly `k` times under group key 0, and the
rewritten header count equals the total number of written lines (so the line is
counted `k` times in it). -/
theorem C10_merged_duplication_amended (W : List ℚ) (segs : List (ℚ × ℚ)) (j k : ℕ)
    (hs : W.Sorted (· < ·)) (hne : W ≠ []) (hj : j < W.length)
    (hk : k = segs.countP (fun s => decide (s.1 ≤ W.getD j 0 ∧ W.getD j 0 ≤ s.2)))
    (hk2 : 2 ≤ k) :
    (written_indices (block_ranges W W.length segs)).count j = k ∧
    write_lines_count (block_ranges W W.length segs) =
      (written_indices (block_ranges W W.length segs)).length := by
  have hs' : W.Sorted (· ≤ ·) := hs.imp fun h => le_of_lt h
  have hpos : 0 < segs.countP (fun s => decide (s.1 ≤ W.getD j 0 ∧ W.getD j 0 ≤ s.2)) := by
    omega
  obtain ⟨s, hsmem, hsp⟩ := List.countP_pos_iff.mp hpos
  have hsp' : s.1 ≤ W.getD j 0 ∧ W.getD j 0 ≤ s.2 := of_decide_eq_true hsp
  have heta : (s.1, s.2) = s := rfl
  have henv : block_in_envelope W W.length segs :=
    block_in_envelope_of_seg hs' hne (heta ▸ hsmem) hj hsp'.1 hsp'.2
  constructor
  · rw [block_ranges, if_pos henv, count_written_filterMap hs hne hj segs, hk]
  · exact write_lines_count_eq_length _

/-- C10 witness: the amended claim on the strictly sorted block `[1, 2, 3]` with
overlapping segments `(1, 2)` and `(2, 3)`: line 1 (wavelength 2) lies in both,
is written twice, and counted twice in the header count. -/
theorem C10_witness :
    (written_indices (block_ranges [1, 2, 3] 3 [(1, 2), (2, 3)])).count 1 = 2 ∧
    write_lines_count (block_ranges [1, 2, 3] 3 [(1, 2), (2, 3)]) =
      (written_indices (block_ranges [1, 2, 3] 3 [(1, 2), (2, 3)])).length :=
  C10_merged_duplication_amended [1, 2, 3] [(1, 2), (2, 3)] 1 2 (by decide) (by decide)
    (by decide) (by decide) (by decide)

/-- C3 (code bug): a file classified as hydrogen carries the QUOTED species string
`'01.000000'`.  With `do_hydrogen=True` it is copied whole once per group, as
claimed.  But with `do_hydrogen=False` the `elif element != '01.000000'` guard on
line 96 compares against the UNQUOTED sentinel, which the quoted string never
equals, so the hydrogen file falls into the windowing branch instead of being
skipped — contradicting the claim and the function's own docstring
(`If do_hydrogen is False, then the linelist is not created for hydrogen`). -/
theorem C3_hydrogen_policy_bug :
    (∀ m : Bool, file_action "\x2701.000000\x27" m true = FileAction.copyWhole) ∧
    (∀ numSegs : ℕ, hydrogen_copy_groups true numSegs = List.range numSegs ∧
      hydrogen_copy_groups false numSegs = [0]) ∧
    (∀ m : Bool, file_action "\x2701.000000\x27" m false = FileAction.window) ∧
    FileAction.window ≠ FileAction.skip :=
  ⟨fun m => by cases m <;> decide,
   fun numSegs => ⟨rfl, rfl⟩,
   fun m => by cases m <;> decide,
   by decide⟩

/-- C4 counterexample: re-running the combiner on a directory whose folder holds
only the (nonempty) combined file truncates it: mode `"w"` empties the file and
no per-file source refills it, so the content changes from `"data"` to `""`. -/
theorem C4_counterexample :
    combine_folder "combined_linelist.bsyn" [("combined_linelist.bsyn", "data")] =
      [("combined_linelist.bsyn", "")] ∧
    (("combined_linelist.bsyn", "") : String × String) ≠
      ("combined_linelist.bsyn", "data") := by decide

/-- C4 (amended): re-running `combine_linelists` on an already-combined directory
(no entry matches the per-file criterion) raises no error, but rewrites each
group's combined file to the EMPTY concatenation; every other non-source entry is
kept.  It is a no-op only when every combined file is already empty. -/
theorem C4_combine_idempotence_amended (combinedName : String)
    (folders : List (List (String × String)))
    (halready : ∀ folder ∈ folders, ∀ f ∈ folder,
      is_bsyn_source combinedName f = false) :
    combine_linelists combinedName folders =
      folders.map (fun folder =>
        folder.filter (fun f => !(f.1 == combinedName)) ++ [(combinedName, "")]) := by
  rw [combine_linelists]
  apply List.map_congr_left
  intro folder hfolder
  rw [combine_folder]
  have h1 : folder.filter
      (fun f => !(is_bsyn_source combinedName f) && !(f.1 == combinedName)) =
      folder.filter (fun f => !(f.1 == combinedName)) := by
    apply List.filter_congr
    intro f hf
    rw [halready folder hfolder f hf]
    simp
  have h2 : folder.filter (is_bsyn_source combinedName) = [] :=
    List.filter_eq_nil_iff.mpr fun f hf => by rw [halready folder hfolder f hf]; simp
  rw [h1, h2]
  simp [String.join]

/-- C4 witness: the amended claim on an already-combined directory whose combined
file is empty — the one genuinely idempotent case. -/
theorem C4_witness :
    combine_linelists "combined_linelist.bsyn" [[("combined_linelist.bsyn", "")]] =
      [[("combined_linelist.bsyn", "")]] := by
  rw [C4_combine_idempotence_amended "combined_linelist.bsyn"
    [[("combined_linelist.bsyn", "")]] (by decide)]
  decide

/-- C9: a file whose first line raises a decode error or is empty produces exactly
one warning and no output, and processing continues with the remaining files (the
failure is never fatal). -/
theorem C9_unreadable_or_empty_skipped {α β : Type} (handle : α → List β)
    (f : LineListFileModel α) (rest : List (LineListFileModel α))
    (hbad : f.firstLine = FirstLineResult.decodeError ∨
      f.firstLine = FirstLineResult.line "") :
    (process_file handle f).2 = [] ∧ (process_file handle f).1.length = 1 ∧
    process_files handle (f :: rest) =
      ((process_file handle f).1 ++ (process_files handle rest).1,
        (process_files handle rest).2) := by
  rcases hbad with h | h <;> simp [process_file, process_files, h]

/-- C9 witness: a file with an empty first line, followed by no other files. -/
theorem C9_witness :
    (process_file (fun _ : Unit => ([] : List Unit))
      ⟨FirstLineResult.line "", ()⟩).2 = [] ∧
    (process_file (fun _ : Unit => ([] : List Unit))
      ⟨FirstLineResult.line "", ()⟩).1.length = 1 ∧
    process_files (fun _ : Unit => ([] : List Unit)) [⟨FirstLineResult.line "", ()⟩] =
      ((process_file (fun _ : Unit => ([] : List Unit))
          ⟨FirstLineResult.line "", ()⟩).1 ++
        (process_files (fun _ : Unit => ([] : List Unit)) []).1,
        (process_files (fun _ : Unit => ([] : List Unit)) []).2) :=
  C9_unreadable_or_empty_skipped _ _ _ (Or.inr rfl)
